import Mathlib

/-!
Shallow embedding, in Lean 4, of the core of the go-ldap LDAPv3 protocol
engine (package `ldap`): the BER codec (`ber.go`), the RFC 4515 search
filter engine (`filter.go`), the client message-ID allocator (`client.go`),
the server dispatch/error path and Root DSE synthesis (server file), and
the search response writer.

Conventions of the embedding:
  * Go byte slices (`[]byte`) are `List Nat`, each element meant to be < 256.
  * Go strings are `List Nat` when only their bytes matter (BER values) and
    Lean `String`/`List Char` where the Go code ranges over runes (filters).
  * Go `int` (64-bit signed) is `Int`; wraparound is made explicit where the
    Go code can overflow.
  * Functions that can fail return `Except String α` mirroring Go's
    `(value, error)` returns.
All definitions follow the Go source, except: `BerValue.typedFor` and
`Packet.wellTyped` state the amendment's side condition for the BER
round-trip claim, and `totalFor` abbreviates the total size `Packet.Size`
reports.
-/

namespace GoLdap

/-- `maxPacketSize` from ber.go: 32 MiB bound on any single packet. -/
def maxPacketSize : Nat := 32 <<< 20

/-- Fuel-driven helper for `byteLen`; the fuel only serves termination and any
fuel ≥ x computes the limit. -/
def byteLenAux : Nat → Nat → Nat
  | 0, _ => 0
  | f + 1, x => if x = 0 then 0 else byteLenAux f (x / 256) + 1

/-- Number of base-256 digits of `x`: the count of iterations of the Go loop
`for x != 0 { n++; x >>= 8 }` appearing in `intSize`, `Packet.Size` and
`Packet.write` in ber.go.  `byteLen 0 = 0`. -/
def byteLen (x : Nat) : Nat := byteLenAux x x

/-- `intSize` from ber.go: the payload size the codec reserves for an integer
value.  Counts the bytes of `uint64(v)` (so a negative `v` costs 8 bytes),
with zero special-cased to one byte. -/
def intSize (v : Int) : Nat :=
  let n := byteLen ((v.emod (2 ^ 64)).toNat)
  if n = 0 then 1 else n

/-- Big-endian base-256 digits of `x` in width `n`: byte `i` is
`byte(x >> ((n-1-i)*8))`, exactly the emission loops of `Packet.write`
(`&0xff` is `% 256`). -/
def beBytes (x : Nat) : Nat → List Nat
  | 0 => []
  | n + 1 => (x >>> (8 * n)) % 256 :: beBytes x n

/-- The dynamic type of a Go `Packet.Value` (`interface{}` restricted to the
four cases `Packet.Size`/`Packet.write` accept: `[]byte`, `string`, `int`,
`bool`).  Go strings are kept as their byte lists but remain distinguishable
from `[]byte`, as they are for `reflect.DeepEqual`. -/
inductive BerValue where
  | bytes (data : List Nat)
  | str (data : List Nat)
  | int (v : Int)
  | bool (b : Bool)
deriving DecidableEq, Repr

/-- `Packet` from ber.go: class, primitive/constructed flag, tag, optional
decoded value (`nil` = `none`), child packets. -/
inductive Packet where
  | mk (cls : Nat) (primitive : Bool) (tag : Nat) (value : Option BerValue)
      (items : List Packet)

/-- `Packet.Class` field accessor. -/
def Packet.cls : Packet → Nat
  | .mk c _ _ _ _ => c

/-- `Packet.Primitive` field accessor. -/
def Packet.primitive : Packet → Bool
  | .mk _ p _ _ _ => p

/-- `Packet.Tag` field accessor. -/
def Packet.tag : Packet → Nat
  | .mk _ _ t _ _ => t

/-- `Packet.Value` field accessor. -/
def Packet.value : Packet → Option BerValue
  | .mk _ _ _ v _ => v

/-- `Packet.Items` field accessor. -/
def Packet.items : Packet → List Packet
  | .mk _ _ _ _ is => is

/-- The primitive-case data size of `Packet.Size` in ber.go, by value type. -/
def primSize : BerValue → Nat
  | .bytes d => d.length
  | .str s => s.length
  | .int v => intSize v
  | .bool _ => 1

mutual

/-- `Packet.Size` from ber.go: data size and total size with headers, or an
error for a nil value (the unknown-type error cannot arise for `BerValue`). -/
def Packet.size : Packet → Except String (Nat × Nat)
  | .mk _ primitive _ value items =>
    match (if primitive then
            match value with
            | none => Except.error "ldap: nil value in Packet.Size"
            | some v => Except.ok (primSize v)
          else
            sizeItems items : Except String Nat) with
    | .error e => .error e
    | .ok sz =>
      if sz < 128 then
        .ok (sz, sz + 2)
      else
        .ok (sz, sz + 2 + byteLen sz)

/-- Sum of the children's total sizes: the constructed case of `Packet.Size`. -/
def sizeItems : List Packet → Except String Nat
  | [] => .ok 0
  | p :: ps =>
    match p.size with
    | .error e => .error e
    | .ok (_, n) =>
      match sizeItems ps with
      | .error e => .error e
      | .ok rest => .ok (n + rest)

end

/-- The header length octets of `Packet.write`: short form below 128, long
form `0x80|n` followed by the `n = byteLen sz` big-endian size bytes. -/
def headerLen (sz : Nat) : List Nat :=
  if sz < 128 then [sz] else (128 + byteLen sz) :: beBytes sz (byteLen sz)

/-- The primitive payload emitted by `Packet.write`, by value type.  For a
negative integer the Go digit loop `for x > 0` runs zero times and emits
nothing, which the `beBytes` term reproduces since `Int.toNat` of a negative
is 0. -/
def primPayload : BerValue → List Nat
  | .bytes d => d
  | .str s => s
  | .int v => if v = 0 then [0] else beBytes v.toNat (byteLen v.toNat)
  | .bool b => [if b then 0xff else 0]

mutual

/-- `Packet.write` from ber.go (equivalently `Packet.Encode`), modeled as
producing the emitted byte list.  The identifier octet
`byte(Class)<<6 | pri | byte(Tag)&0x1f` is written as the sum of its
disjoint bit groups. -/
def Packet.encode : Packet → Except String (List Nat)
  | .mk cls primitive tag value items =>
    match Packet.size (.mk cls primitive tag value items) with
    | .error e => .error e
    | .ok (sz, total) =>
      if total > maxPacketSize then
        .error "ldap: packet larger than max size"
      else
        let b0 := (cls % 4) * 64 + (if primitive then 0 else 32) + tag % 32
        if primitive then
          match value with
          | none => .error "ldap: nil value in Packet.write"
          | some v => .ok (b0 :: headerLen sz ++ primPayload v)
        else
          match value with
          | some _ => .error "ldap: non-primitive type has a value"
          | none =>
            match encodeItems items with
            | .error e => .error e
            | .ok payload => .ok (b0 :: headerLen sz ++ payload)

/-- Concatenation of the children's encodings: the constructed case of
`Packet.write`. -/
def encodeItems : List Packet → Except String (List Nat)
  | [] => .ok []
  | p :: ps =>
    match p.encode with
    | .error e => .error e
    | .ok b =>
      match encodeItems ps with
      | .error e => .error e
      | .ok rest => .ok (b ++ rest)

end

/-- The total size (data + header byte + length octets) that `Packet.Size`
reports for a data size `sz`; abbreviation used by the round-trip lemmas. -/
def totalFor (sz : Nat) : Nat := sz + 2 + (if sz < 128 then 0 else byteLen sz)

/-- Go's 64-bit signed wraparound, for the accumulator of integer decoding. -/
def wrap64 (x : Int) : Int := (x + 2 ^ 63) % 2 ^ 64 - 2 ^ 63

/-- UTF-8 bytes of code point `c < 256`, as produced by Go's `string(runes)`
conversion in the PrintableString branch of `parseValue`. -/
def runeUtf8 (c : Nat) : List Nat :=
  if c < 0x80 then [c] else [0xc0 + c / 64, 0x80 + c % 64]

/-- `parseValue` from ber.go: decode a Universal primitive payload by tag.
Tags: 1 Boolean, 2 Integer, 10 Enumerated, 19 PrintableString (bytes widened
to runes), 12 UTF8String; anything else stays raw bytes (including
OctetString, whose case is commented out in the source). -/
def parseValue (tag : Nat) (data : List Nat) : Except String BerValue :=
  if tag = 1 then
    match data with
    | [b] => .ok (.bool (b != 0))
    | _ => .error "ldap: bool other than 1"
  else if tag = 2 ∨ tag = 10 then
    .ok (.int (data.foldl (fun (i : Int) (b : Nat) => wrap64 (i * 256 + (b : Int))) 0))
  else if tag = 19 then
    .ok (.str (data.map runeUtf8).flatten)
  else if tag = 12 then
    .ok (.str data)
  else
    .ok (.bytes data)

mutual

/-- `ParsePacket` from ber.go, with explicit recursion fuel.  The fuel is a
termination artifact only: the Go recursion is genuinely terminating because
every nested call works on a strictly shorter buffer, and
`2 * buf.length + 1` units (what `ParsePacket` below supplies) always cover
it, as the round-trip proofs verify.  Returns the packet and the number of
bytes consumed. -/
def parsePacketF : Nat → List Nat → Except String (Packet × Nat)
  | 0, _ => .error "ldap: fuel exhausted"
  | fuel + 1, buf =>
    match buf with
    | b0 :: b1 :: _ =>
      let step :=
        if b1 &&& 0x80 != 0 then
          let n := b1 &&& 0x7f
          if n = 0 then
            Except.error "ldap: indefinite form for length not supported"
          else if n > 8 then
            Except.error "ldap: number of size bytes failed sanity check"
          else if buf.length < 2 + n then
            Except.error "ldap: short packet"
          else
            let dataLen := ((buf.drop 2).take n).foldl (fun d b => d * 256 + b) 0
            if dataLen > maxPacketSize then
              Except.error "ldap: packet larger than max allowed size"
            else
              Except.ok (2 + n, dataLen)
        else
          Except.ok (2, b1)
      match step with
      | .error e => .error e
      | .ok (hdr, dataLen) =>
        if dataLen > buf.length - hdr then
          .error "ldap: short packet"
        else
          let data := (buf.drop hdr).take dataLen
          let cls := b0 >>> 6
          let primitive := b0 &&& 0x20 == 0
          let tag := b0 &&& 0x1f
          if primitive then
            if cls = 0 then
              match parseValue tag data with
              | .error e => .error e
              | .ok v => .ok (.mk cls primitive tag (some v) [], hdr + dataLen)
            else
              .ok (.mk cls primitive tag (some (.bytes data)) [], hdr + dataLen)
          else
            match parseItemsF fuel data with
            | .error e => .error e
            | .ok items => .ok (.mk cls primitive tag none items, hdr + dataLen)
    | _ => .error "ldap: short packet"

/-- The child loop of `ParsePacket`: `for len(data) > 0` parse one packet and
drop the consumed bytes. -/
def parseItemsF : Nat → List Nat → Except String (List Packet)
  | _, [] => .ok []
  | 0, _ :: _ => .error "ldap: fuel exhausted"
  | fuel + 1, d :: ds =>
    match parsePacketF fuel (d :: ds) with
    | .error e => .error e
    | .ok (item, n) =>
      match parseItemsF fuel ((d :: ds).drop n) with
      | .error e => .error e
      | .ok rest => .ok (item :: rest)

end

/-- `ParsePacket` entry point (fuel made explicit; `2 * buf.length + 1` units
are always enough because every recursive step consumes input). -/
def ParsePacket (buf : List Nat) : Except String (Packet × Nat) :=
  parsePacketF (2 * buf.length + 1) buf

/-- The amended round-trip claim's side condition (not a source function): a
primitive value whose dynamic type is exactly what `parseValue` reproduces
for the given class and tag (and whose bytes are in range, an artifact of
modeling Go's `byte` by `Nat`). -/
def BerValue.typedFor (cls tag : Nat) : BerValue → Bool
  | .bytes d =>
    (cls != 0 || (tag != 1 && tag != 2 && tag != 10 && tag != 12 && tag != 19))
      && d.all fun b => decide (b < 256)
  | .str s =>
    cls == 0 && ((tag == 12 && s.all fun b => decide (b < 256))
      || (tag == 19 && s.all fun b => decide (b < 128)))
  | .int v => cls == 0 && (tag == 2 || tag == 10) && decide (0 ≤ v) && decide (v < 2 ^ 63)
  | .bool _ => cls == 0 && tag == 1

mutual

/-- The amended round-trip claim's side condition (not a source function):
class and tag fit their identifier-octet bit fields, primitive packets carry
no children and a value of the type `parseValue` would reproduce, constructed
packets carry no value. -/
def Packet.wellTyped : Packet → Bool
  | .mk cls primitive tag value items =>
    decide (cls < 4) && decide (tag < 32) &&
      (if primitive then
        items.isEmpty &&
          (match value with
           | none => false
           | some v => v.typedFor cls tag)
      else
        value.isNone && wellTypedItems items)

/-- `Packet.wellTyped` for every packet of a list. -/
def wellTypedItems : List Packet → Bool
  | [] => true
  | p :: ps => p.wellTyped && wellTypedItems ps

end

/-! ## Filter engine (filter.go)

Go strings that the filter code ranges over rune by rune are modeled as
`List Char`; `[]byte` values stay `List Nat`.  `string(bytes)` and
`[]byte(string)` conversions are made explicit as UTF-8 decode/encode. -/

/-- The rune Go's `tokenizer.next` returns at the end of the input (and the
value of a literal NUL character, which the parser treats identically). -/
def nulChar : Char := '\x00'

/-- `utf8.RuneError` (U+FFFD). -/
def replChar : Char := '\uFFFD'

/-- UTF-8 bytes of one character, as Go produces for `[]byte(string)`. -/
def charUtf8 (c : Char) : List Nat :=
  let n := c.toNat
  if n < 0x80 then [n]
  else if n < 0x800 then [0xc0 + n / 64, 0x80 + n % 64]
  else if n < 0x10000 then [0xe0 + n / 4096, 0x80 + n / 64 % 64, 0x80 + n % 64]
  else [0xf0 + n / 262144, 0x80 + n / 4096 % 64, 0x80 + n / 64 % 64, 0x80 + n % 64]

/-- `[]byte(s)` for a Go string held as runes. -/
def utf8Encode (s : List Char) : List Nat := (s.map charUtf8).flatten

/-- UTF-8 decoding of a Go string's bytes into the runes `range` yields:
Go's `utf8.DecodeRune` acceptance ranges, with one U+FFFD per invalid byte. -/
def utf8Decode : List Nat → List Char
  | [] => []
  | b :: bs =>
    if b < 0x80 then Char.ofNat b :: utf8Decode bs
    else if 0xc2 ≤ b ∧ b ≤ 0xdf then
      match bs with
      | b1 :: rest =>
        if 0x80 ≤ b1 ∧ b1 ≤ 0xbf then
          Char.ofNat ((b - 0xc0) * 64 + (b1 - 0x80)) :: utf8Decode rest
        else
          replChar :: utf8Decode (b1 :: rest)
      | [] => [replChar]
    else if 0xe0 ≤ b ∧ b ≤ 0xef then
      match bs with
      | b1 :: b2 :: rest =>
        if ((b = 0xe0 ∧ 0xa0 ≤ b1 ∧ b1 ≤ 0xbf) ∨
            (b = 0xed ∧ 0x80 ≤ b1 ∧ b1 ≤ 0x9f) ∨
            (b ≠ 0xe0 ∧ b ≠ 0xed ∧ 0x80 ≤ b1 ∧ b1 ≤ 0xbf)) ∧
            0x80 ≤ b2 ∧ b2 ≤ 0xbf then
          Char.ofNat ((b - 0xe0) * 4096 + (b1 - 0x80) * 64 + (b2 - 0x80)) :: utf8Decode rest
        else
          replChar :: utf8Decode (b1 :: b2 :: rest)
      | bs1 => replChar :: utf8Decode bs1
    else if 0xf0 ≤ b ∧ b ≤ 0xf4 then
      match bs with
      | b1 :: b2 :: b3 :: rest =>
        if ((b = 0xf0 ∧ 0x90 ≤ b1 ∧ b1 ≤ 0xbf) ∨
            (b = 0xf4 ∧ 0x80 ≤ b1 ∧ b1 ≤ 0x8f) ∨
            (b ≠ 0xf0 ∧ b ≠ 0xf4 ∧ 0x80 ≤ b1 ∧ b1 ≤ 0xbf)) ∧
            0x80 ≤ b2 ∧ b2 ≤ 0xbf ∧ 0x80 ≤ b3 ∧ b3 ≤ 0xbf then
          Char.ofNat ((b - 0xf0) * 262144 + (b1 - 0x80) * 4096 + (b2 - 0x80) * 64 + (b3 - 0x80))
            :: utf8Decode rest
        else
          replChar :: utf8Decode (b1 :: b2 :: b3 :: rest)
      | bs1 => replChar :: utf8Decode bs1
    else
      replChar :: utf8Decode bs

/-- `Filter` from filter.go as a closed variant: one case per implementation
of the Go `Filter` interface (ExtensibleMatch has no parser or printer in the
source and carries no data here beyond what the claims need, so it is
omitted from the embedding; no claim mentions it). -/
inductive Filter where
  | and (filters : List Filter)
  | or (filters : List Filter)
  | not (f : Filter)
  | equalityMatch (attr : List Char) (value : List Nat)
  | greaterOrEqual (attr : List Char) (value : List Nat)
  | lessOrEqual (attr : List Char) (value : List Nat)
  | approxMatch (attr : List Char) (value : List Nat)
  | present (attr : List Char)
  | substrings (attr : List Char) (initial : List Char) (final : List Char)
      (anyOf : List (List Char))

/-- The `escapes` table from filter.go, verbatim — including its `'|'` entry,
which the source maps to `\3c` (the code of `<`), not `\7c`. -/
def escapes (r : Char) : Option (List Char) :=
  if r = '(' then some ['\\', '2', '8']
  else if r = ')' then some ['\\', '2', '9']
  else if r = '&' then some ['\\', '2', '6']
  else if r = '|' then some ['\\', '3', 'c']
  else if r = '=' then some ['\\', '3', 'd']
  else if r = '>' then some ['\\', '3', 'e']
  else if r = '<' then some ['\\', '3', 'c']
  else if r = '~' then some ['\\', '7', 'e']
  else if r = '*' then some ['\\', '2', 'a']
  else if r = '/' then some ['\\', '2', 'f']
  else if r = '\\' then some ['\\', '5', 'c']
  else none

/-- `filterEscape` from filter.go. -/
def filterEscape (s : List Char) : List Char :=
  (s.map fun r => (escapes r).getD [r]).flatten

mutual

/-- `String()` of each filter variant, from filter.go.  Byte-valued items
print `string(f.Value)`, hence the UTF-8 decode. -/
def Filter.string : Filter → List Char
  | .and fs => '(' :: '&' :: stringList fs ++ [')']
  | .or fs => '(' :: '|' :: stringList fs ++ [')']
  | .not f => '(' :: '!' :: f.string ++ [')']
  | .equalityMatch a v =>
    '(' :: filterEscape a ++ '=' :: filterEscape (utf8Decode v) ++ [')']
  | .greaterOrEqual a v =>
    '(' :: filterEscape a ++ '>' :: '=' :: filterEscape (utf8Decode v) ++ [')']
  | .lessOrEqual a v =>
    '(' :: filterEscape a ++ '<' :: '=' :: filterEscape (utf8Decode v) ++ [')']
  | .approxMatch a v =>
    '(' :: filterEscape a ++ '~' :: '=' :: filterEscape (utf8Decode v) ++ [')']
  | .present a => '(' :: filterEscape a ++ '=' :: '*' :: [')']
  | .substrings a ini fin anyOf =>
    '(' :: filterEscape a ++ '=' ::
      List.intercalate ['*']
        (filterEscape ini :: (anyOf.map filterEscape ++ [filterEscape fin])) ++ [')']

/-- `strings.Join(s, "")` over the rendered members of AND/OR. -/
def stringList : List Filter → List Char
  | [] => []
  | f :: fs => f.string ++ stringList fs

end

/-- `strings.Split(s, "*")` specialised to the one-character separator used
by the substring branch of the filter item production. -/
def splitStar : List Char → List (List Char)
  | [] => [[]]
  | c :: cs =>
    if c = '*' then [] :: splitStar cs
    else
      match splitStar cs with
      | p :: ps => (c :: p) :: ps
      | [] => [[c]]

/-- `ErrFilterSyntaxError` from filter.go (`Pos` is the rune position). -/
structure ErrFilterSyntaxError where
  pos : Nat
  msg : String
deriving DecidableEq, Repr

/-- One hex digit, as `strconv.ParseInt(·, 16, 8)` accepts (both cases). -/
def hexDigit (c : Char) : Option Nat :=
  if '0' ≤ c ∧ c ≤ '9' then some (c.toNat - 48)
  else if 'a' ≤ c ∧ c ≤ 'f' then some (c.toNat - 87)
  else if 'A' ≤ c ∧ c ≤ 'F' then some (c.toNat - 55)
  else none

/-- `strconv.ParseInt(string(r1)+string(r2), 16, 8)`: a two-character signed
hex parse with the signed 8-bit range check (so e.g. `ff` is out of range and
an optional leading sign is accepted). -/
def parseIntHex8 (r1 r2 : Char) : Option Int :=
  if r1 = '+' ∨ r1 = '-' then
    match hexDigit r2 with
    | none => none
    | some d => some (if r1 = '-' then -(d : Int) else (d : Int))
  else
    match hexDigit r1, hexDigit r2 with
    | some d1, some d2 =>
      let v : Int := d1 * 16 + d2
      if 127 < v then none else some v
    | _, _ => none

/-- `rune(n)` appended to a `[]rune` and later passed through `string(...)`:
a negative code point becomes U+FFFD. -/
def runeOfInt (n : Int) : Char :=
  if n < 0 then replChar else Char.ofNat n.toNat

/-- The `>`/`<`/`~` arm of the name loop: the operator must be followed by
`=`, otherwise a syntax error at the position after the operator. -/
def opEqTail (c : Char) (acc : List Char) (cs : List Char) (cpos : Nat) :
    Except ErrFilterSyntaxError (List Char × List Char × List Char × Nat) :=
  match cs with
  | [] => .error ⟨cpos, "expected = after op"⟩
  | c2 :: cs2 =>
    if c2 = '=' then
      .ok (acc, [c, '='], cs2, cpos + 2)
    else
      .error ⟨cpos + 1, "expected = after op"⟩

/-- The attribute-name loop of `parseFilter` (filter.go): accumulate runes
until an operator, handling `\HH` escapes.  Returns
(name, op, remaining input, rune position). -/
def nameLoop : List Char → Nat → List Char →
    Except ErrFilterSyntaxError (List Char × List Char × List Char × Nat)
  | [], cpos, _ => .error ⟨cpos, "unxpected end of filter"⟩
  | c :: cs, cpos, acc =>
    if c = nulChar ∨ c = replChar then
      .error ⟨cpos + 1, "unxpected end of filter"⟩
    else if c = '=' then
      .ok (acc, ['='], cs, cpos + 1)
    else if c = '>' ∨ c = '<' ∨ c = '~' then
      opEqTail c acc cs cpos
    else if c = '\\' then
      match cs with
      | [] => .error ⟨cpos + 1, "unxpected end of filter"⟩
      | [_] => .error ⟨cpos + 2, "unxpected end of filter"⟩
      | r1 :: r2 :: cs2 =>
        if r1 = nulChar ∨ r1 = replChar ∨ r2 = nulChar ∨ r2 = replChar then
          .error ⟨cpos + 3, "unxpected end of filter"⟩
        else
          match parseIntHex8 r1 r2 with
          | none => .error ⟨cpos + 1, "unable to parse hex code"⟩
          | some n => nameLoop cs2 (cpos + 3) (acc ++ [runeOfInt n])
    else
      nameLoop cs (cpos + 1) (acc ++ [c])

/-- The value loop of `parseFilter` (filter.go): accumulate runes until the
closing parenthesis (which is pushed back), tracking whether a literal `*`
was seen.  Returns (value, hasStar, remaining input, rune position). -/
def valueLoop : List Char → Nat → List Char → Bool →
    Except ErrFilterSyntaxError (List Char × Bool × List Char × Nat)
  | [], cpos, _, _ => .error ⟨cpos, "unxpected end of filter"⟩
  | c :: cs, cpos, acc, hasStar =>
    let hasStar := hasStar || c == '*'
    if c = nulChar ∨ c = replChar then
      .error ⟨cpos + 1, "unxpected end of filter"⟩
    else if c = ')' then
      .ok (acc, hasStar, c :: cs, cpos + 1)
    else if c = '\\' then
      match cs with
      | [] => .error ⟨cpos + 1, "unxpected end of filter"⟩
      | [_] => .error ⟨cpos + 2, "unxpected end of filter"⟩
      | r1 :: r2 :: cs2 =>
        if r1 = nulChar ∨ r1 = replChar ∨ r2 = nulChar ∨ r2 = replChar then
          .error ⟨cpos + 3, "unxpected end of filter"⟩
        else
          match parseIntHex8 r1 r2 with
          | none => .error ⟨cpos + 1, "unable to parse hex code"⟩
          | some n => valueLoop cs2 (cpos + 3) (acc ++ [runeOfInt n]) hasStar
    else
      valueLoop cs (cpos + 1) (acc ++ [c]) hasStar

/-- The item production at the end of `parseFilter`'s default branch:
`*` value → Present, a value containing `*` → Substrings split on `*`
(parts[0] initial, last part final, all interior parts any), otherwise the
operator selects the assertion kind. -/
def mkItemFilter (name op value : List Char) (hasStar : Bool) (cpos : Nat) :
    Except ErrFilterSyntaxError Filter :=
  if value = ['*'] then
    if op ≠ ['='] then
      .error ⟨cpos, "* value for non = op"⟩
    else
      .ok (.present name)
  else if hasStar then
    if op ≠ ['='] then
      .error ⟨cpos, "non equality substring match not allowed"⟩
    else
      let parts := splitStar value
      .ok (.substrings name (parts.headD []) (parts.getLastD [])
        ((parts.drop 1).dropLast))
  else
    if op = ['='] then .ok (.equalityMatch name (utf8Encode value))
    else if op = ['>', '='] then .ok (.greaterOrEqual name (utf8Encode value))
    else if op = ['<', '='] then .ok (.lessOrEqual name (utf8Encode value))
    else .ok (.approxMatch name (utf8Encode value))

/-- The closing step shared by every `parseFilter` branch:
`if r := tok.next(); r != ')' { syntax error }`. -/
def closeParen (f : Filter) (rest : List Char) (cpos : Nat) :
    Except ErrFilterSyntaxError (Option Filter × List Char × Nat) :=
  match rest with
  | [] => .error ⟨cpos - 1, "expected )"⟩
  | c :: cs =>
    if c = ')' then .ok (some f, cs, cpos + 1) else .error ⟨cpos, "expected )"⟩

mutual

/-- `parseFilter` from filter.go, with explicit recursion fuel (a termination
artifact: every nesting level consumes input, and `ParseFilter` supplies
enough units).  `none` is the `nil, nil` return taken when `checkClose` is
set and the next rune is the closing parenthesis (which is pushed back
without undoing the rune-position increment, as in the source). -/
def parseFilterF : Nat → Bool → List Char → Nat →
    Except ErrFilterSyntaxError (Option Filter × List Char × Nat)
  | 0, _, _, _ => .error ⟨0, "fuel exhausted"⟩
  | fuel + 1, checkClose, rest, cpos =>
    match rest with
    | [] => .error ⟨cpos - 1, "expected ("⟩
    | r :: rs =>
      if checkClose ∧ r = ')' then
        .ok (none, r :: rs, cpos + 1)
      else if r ≠ '(' then
        .error ⟨cpos, "expected ("⟩
      else
        match rs with
        | [] => .error ⟨cpos + 1, "unxpected end of filter"⟩
        | r2 :: rs2 =>
          if r2 = nulChar ∨ r2 = replChar then
            .error ⟨cpos + 2, "unxpected end of filter"⟩
          else if r2 = '&' ∨ r2 = '|' then
            match parseFilterListF fuel rs2 (cpos + 2) with
            | .error e => .error e
            | .ok (fs, rest1, cpos1) =>
              closeParen (if r2 = '&' then .and fs else .or fs) rest1 cpos1
          else if r2 = '!' then
            match parseFilterF fuel false rs2 (cpos + 2) with
            | .error e => .error e
            | .ok (none, _, cpos1) =>
              .error ⟨cpos1, "unreachable: nil filter without checkClose"⟩
            | .ok (some f, rest1, cpos1) => closeParen (.not f) rest1 cpos1
          else
            match nameLoop rs2 (cpos + 2) [r2] with
            | .error e => .error e
            | .ok (name, op, rest1, cpos1) =>
              match valueLoop rest1 cpos1 [] false with
              | .error e => .error e
              | .ok (value, hasStar, rest2, cpos2) =>
                match mkItemFilter name op value hasStar cpos2 with
                | .error e => .error e
                | .ok f => closeParen f rest2 cpos2

/-- The `for` loop of the `&`/`|` branches: collect sub-filters until the
probe with `checkClose` returns `nil`. -/
def parseFilterListF : Nat → List Char → Nat →
    Except ErrFilterSyntaxError (List Filter × List Char × Nat)
  | 0, _, _ => .error ⟨0, "fuel exhausted"⟩
  | fuel + 1, rest, cpos =>
    match parseFilterF fuel true rest cpos with
    | .error e => .error e
    | .ok (none, rest1, cpos1) => .ok ([], rest1, cpos1)
    | .ok (some f, rest1, cpos1) =>
      match parseFilterListF fuel rest1 cpos1 with
      | .error e => .error e
      | .ok (fs, rest2, cpos2) => .ok (f :: fs, rest2, cpos2)

end

/-- `ParseFilter` from filter.go.  (The source does not reject trailing input
after the root filter.) -/
def ParseFilter (s : List Char) : Except ErrFilterSyntaxError Filter :=
  if s.length = 0 then
    .error ⟨0, "empty filter"⟩
  else
    match parseFilterF (2 * s.length + 1) false s 0 with
    | .error e => .error e
    | .ok (some f, _, _) => .ok f
    | .ok (none, _, _) => .error ⟨0, "unreachable: nil filter without checkClose"⟩

/-! ## Client message-ID allocation (client.go) -/

/-- `Client.newID` from client.go: `atomic.AddUint32(&c.msgID, 1)` increments
the 32-bit counter and returns the incremented value, which becomes the
request's message ID.  State-passing form: (allocated ID, new counter). -/
def newID (msgID : Nat) : Nat × Nat :=
  let next := (msgID + 1) % 2 ^ 32
  (next, next)

/-- The counter after `k` allocations, starting from the `msgID: 1` that
`NewClient` sets. -/
def msgIDAfter : Nat → Nat
  | 0 => 1
  | k + 1 => (newID (msgIDAfter k)).2

/-- The message ID drawn by the `(i+1)`-st request (0-indexed): the `newID`
result on the counter the first `i` requests left behind. -/
def requestID (i : Nat) : Nat := (newID (msgIDAfter i)).1

/-! ## Responses, result codes, server dispatch (ldap.go and the server file) -/

/-- The result codes from ldap.go that the claims mention. -/
def ResultSuccess : Nat := 0

/-- ResultProtocolError from ldap.go. -/
def ResultProtocolError : Nat := 2

/-- ResultNoSuchObject from ldap.go. -/
def ResultNoSuchObject : Nat := 32

/-- ResultInvalidCredentials from ldap.go. -/
def ResultInvalidCredentials : Nat := 49

/-- ResultUnwillingToPerform from ldap.go. -/
def ResultUnwillingToPerform : Nat := 53

/-- ResultOther from ldap.go. -/
def ResultOther : Nat := 80

/-- Application tags from ldap.go (RFC 4511 registry). -/
def ApplicationBindRequest : Nat := 0

/-- ApplicationUnbindRequest from ldap.go. -/
def ApplicationUnbindRequest : Nat := 2

/-- ApplicationSearchRequest from ldap.go. -/
def ApplicationSearchRequest : Nat := 3

/-- ApplicationSearchResultEntry from ldap.go. -/
def ApplicationSearchResultEntry : Nat := 4

/-- ApplicationSearchResultDone from ldap.go. -/
def ApplicationSearchResultDone : Nat := 5

/-- ApplicationModifyRequest from ldap.go. -/
def ApplicationModifyRequest : Nat := 6

/-- ApplicationAddRequest from ldap.go. -/
def ApplicationAddRequest : Nat := 8

/-- ApplicationDelRequest from ldap.go. -/
def ApplicationDelRequest : Nat := 10

/-- ApplicationModifyDNRequest from ldap.go. -/
def ApplicationModifyDNRequest : Nat := 12

/-- ApplicationAbandonRequest from ldap.go. -/
def ApplicationAbandonRequest : Nat := 16

/-- ApplicationExtendedRequest from ldap.go. -/
def ApplicationExtendedRequest : Nat := 23

/-- `BaseResponse` from the server file: message type (application tag of the
response), result code, matched DN, diagnostic message. -/
structure BaseResponse where
  messageType : Nat
  code : Nat
  matchedDN : String
  message : String
deriving DecidableEq, Repr

/-- `BaseResponse.Err` from the server file: `nil` for code `Success` (0),
otherwise the response itself is the returned error (it carries the code,
matched DN and diagnostic message). -/
def BaseResponse.err (r : BaseResponse) : Option BaseResponse :=
  if r.code = 0 then none else some r

/-- The tail of `Client.Bind` in client.go: after the BindResponse parses,
the caller gets `res.BaseResponse.Err()`. -/
def bindResult (res : BaseResponse) : Option BaseResponse := res.err

/-- The errors `srvClient.processRequest` can signal to `srvClient.serve`
(`io.EOF` for Unbind; structural `ProtocolError`; the default branch's
`UnsupportedRequestTagError`; any other backend error). -/
inductive SrvError where
  | eof
  | protocolError (msg : String)
  | unsupportedRequestTag (tag : Nat)
  | otherError (msg : String)
deriving DecidableEq, Repr

/-- The application tags with a case in the `switch pkt.Tag` of
`srvClient.processRequest`; every other tag (including AbandonRequest, 16,
which has no case) falls to the default branch. -/
def handledTags : List Nat :=
  [ApplicationUnbindRequest, ApplicationBindRequest, ApplicationSearchRequest,
   ApplicationAddRequest, ApplicationDelRequest, ApplicationModifyRequest,
   ApplicationModifyDNRequest, ApplicationExtendedRequest]

/-- The dispatch step of `srvClient.processRequest`: a tag without a case
returns `UnsupportedRequestTagError(tag)` immediately; UnbindRequest returns
`io.EOF`; the remaining handled tags run their parsers and the backend,
which no claim depends on, so they are summarised as `none` (no dispatch
error). -/
def processRequestDispatch (tag : Nat) : Option SrvError :=
  if tag ∈ handledTags then
    if tag = ApplicationUnbindRequest then some .eof else none
  else
    some (.unsupportedRequestTag tag)

/-- What one iteration of `srvClient.serve` does with an error from
`processRequest`: which reply is written and whether the loop returns
(closing the connection). -/
structure ServeErrOutcome where
  replies : List BaseResponse
  closesConn : Bool
deriving DecidableEq, Repr

/-- The error handling at the bottom of `srvClient.serve`'s read loop,
assuming the deadline/write/flush steps succeed: non-EOF errors get one
reply initialised with `MessageType: tag+1, Code: Other, Message: "ERROR"`;
a `ProtocolError` or `UnsupportedRequestTagError` overrides code and message
and clears the `end` flag, so only those two keep the connection open. -/
def serveHandleError (reqTag : Nat) (err : SrvError) : ServeErrOutcome :=
  match err with
  | .eof => ⟨[], true⟩
  | .protocolError msg =>
    ⟨[{ messageType := reqTag + 1, code := ResultProtocolError,
        matchedDN := "", message := msg }], false⟩
  | .unsupportedRequestTag t =>
    ⟨[{ messageType := reqTag + 1, code := ResultUnwillingToPerform,
        matchedDN := "", message := "unsupported request tag " ++ toString t }], false⟩
  | .otherError _ =>
    ⟨[{ messageType := reqTag + 1, code := ResultOther,
        matchedDN := "", message := "ERROR" }], true⟩

/-! ## Root DSE synthesis and the search response writer (server file) -/

/-- `[]byte(s)` of a Go string value. -/
def strBytes (s : String) : List Nat := utf8Encode s.toList

/-- `strings.ToLower`, restricted to ASCII (the configured Root DSE attribute
names are ASCII; Go's function is Unicode-general). -/
def toLowerStr (s : String) : String := ⟨s.data.map Char.toLower⟩

/-- `SearchResult` from the search file: DN and attribute map (modeled as an
association list in iteration order). -/
structure SearchResult where
  dn : String
  attributes : List (String × List (List Nat))
deriving DecidableEq, Repr

/-- `SearchResponse` from the search file. -/
structure SearchResponse where
  base : BaseResponse
  results : List SearchResult
deriving DecidableEq, Repr

/-- `srvClient.rootDSE` from the server file.  `cfg` is `srv.RootDSE` (the
per-server attribute configuration) and `reqAttrs` the request's attribute
set (`req.Attributes`, whose keys `parseSearchRequest` stores verbatim).
With no requested attributes the sole entry carries only `objectClass=top`;
otherwise a configured attribute is included when the requested set contains
`+` or contains `strings.ToLower` of the configured name. -/
def rootDSE (cfg : List (String × List String)) (reqAttrs : List String) :
    SearchResponse :=
  if reqAttrs.isEmpty then
    { base := ⟨0, 0, "", ""⟩,
      results := [{ dn := "", attributes := [("objectClass", [strBytes "top"])] }] }
  else
    { base := ⟨0, 0, "", ""⟩,
      results := [⟨"", cfg.filterMap fun nv =>
        if reqAttrs.contains "+" || reqAttrs.contains (toLowerStr nv.1) then
          some (nv.1, nv.2.map strBytes)
        else
          none⟩] }

/-- `NewResponsePacket` from the server file: a Universal Sequence whose
first child is the Integer message ID. -/
def NewResponsePacket (msgID : Int) : Packet :=
  .mk 0 false 16 none [.mk 0 true 2 (some (.int msgID)) []]

/-- `BaseResponse.NewPacket` from the server file: an Application-class
constructed packet tagged with the message type, carrying Enumerated code,
OctetString matched DN and OctetString message (the latter two with Go
`string` values). -/
def BaseResponse.newPacket (r : BaseResponse) : Packet :=
  .mk 1 false r.messageType none
    [.mk 0 true 10 (some (.int (r.code : Int))) [],
     .mk 0 true 4 (some (.str (strBytes r.matchedDN))) [],
     .mk 0 true 4 (some (.str (strBytes r.message))) []]

/-- The `pkt.Tag = ...` mutation used after `AddItem(NewPacket())`. -/
def Packet.withTag (t : Nat) : Packet → Packet
  | .mk c p _ v is => .mk c p t v is

/-- One SearchResultEntry message as built by `SearchResponse.WritePackets`:
Sequence(msgID, Application 4 constructed(DN, Sequence of
Sequence(name, Set of values))). -/
def searchEntryPacket (msgID : Int) (res : SearchResult) : Packet :=
  .mk 0 false 16 none
    [.mk 0 true 2 (some (.int msgID)) [],
     .mk 1 false ApplicationSearchResultEntry none
       [.mk 0 true 4 (some (.str (strBytes res.dn))) [],
        .mk 0 false 16 none (res.attributes.map fun nv =>
          .mk 0 false 16 none
            [.mk 0 true 4 (some (.str (strBytes nv.1))) [],
             .mk 0 false 17 none (nv.2.map fun v =>
               .mk 0 true 4 (some (.bytes v)) [])])]]

/-- `SearchResponse.WritePackets` from the search file, modeled as the list
of messages written to the wire plus the response value it leaves behind.
Faithful to the source's order: the SearchResultDone packet is built from
`r.BaseResponse` first, and only then is the stored code rewritten to
NoSuchObject when there were no results and the code was Success. -/
def SearchResponse.writePackets (msgID : Int) (r : SearchResponse) :
    List Packet × SearchResponse :=
  let entries := r.results.map (searchEntryPacket msgID)
  let donePkt : Packet :=
    .mk 0 false 16 none
      [.mk 0 true 2 (some (.int msgID)) [],
       (r.base.newPacket).withTag ApplicationSearchResultDone]
  let base' :=
    if r.results.length = 0 ∧ r.base.code = ResultSuccess then
      { r.base with code := ResultNoSuchObject }
    else
      r.base
  (entries ++ [donePkt], { r with base := base' })

/-! ## Theorems -/

/-! ### Bit-field facts about the identifier and length octets -/

theorem fin_land128_zero : ∀ x : Fin 128, x.val &&& 128 = 0 := by decide

theorem land128_eq_zero (sz : Nat) (h : sz < 128) : sz &&& 128 = 0 :=
  fin_land128_zero ⟨sz, h⟩

theorem fin_longform_bits : ∀ n : Fin 9,
    (128 + n.val) &&& 128 = 128 ∧ (128 + n.val) &&& 127 = n.val := by decide

theorem longform_bits (n : Nat) (h : n ≤ 8) :
    (128 + n) &&& 128 = 128 ∧ (128 + n) &&& 127 = n :=
  fin_longform_bits ⟨n, by omega⟩

theorem fin_header_bits : ∀ c : Fin 4, ∀ t : Fin 32, ∀ b : Bool,
    (c.val * 64 + (if b then 0 else 32) + t.val) >>> 6 = c.val ∧
    ((c.val * 64 + (if b then 0 else 32) + t.val) &&& 32 == 0) = b ∧
    (c.val * 64 + (if b then 0 else 32) + t.val) &&& 31 = t.val := by decide

theorem header_bits (cls tag : Nat) (pri : Bool) (h1 : cls < 4) (h2 : tag < 32) :
    (cls * 64 + (if pri then 0 else 32) + tag) >>> 6 = cls ∧
    ((cls * 64 + (if pri then 0 else 32) + tag) &&& 32 == 0) = pri ∧
    (cls * 64 + (if pri then 0 else 32) + tag) &&& 31 = tag :=
  fin_header_bits ⟨cls, h1⟩ ⟨tag, h2⟩ pri

/-! ### Arithmetic facts about `byteLen`, `beBytes` and the decode folds -/

theorem byteLenAux_zero (f : Nat) : byteLenAux f 0 = 0 := by
  cases f <;> simp [byteLenAux]

theorem byteLenAux_congr (f : Nat) : ∀ g x, x ≤ f → x ≤ g →
    byteLenAux f x = byteLenAux g x := by
  induction f with
  | zero =>
    intro g x hf _
    have hx : x = 0 := by omega
    subst hx
    rw [byteLenAux_zero, byteLenAux_zero]
  | succ n ih =>
    intro g x hf hg
    by_cases hx : x = 0
    · subst hx
      rw [byteLenAux_zero, byteLenAux_zero]
    · cases g with
      | zero => omega
      | succ m =>
        simp only [byteLenAux, hx, if_false]
        have hd : x / 256 < x := Nat.div_lt_self (by omega) (by norm_num)
        rw [ih m (x / 256) (by omega) (by omega)]

theorem byteLen_eq (x : Nat) :
    byteLen x = if x = 0 then 0 else byteLen (x / 256) + 1 := by
  by_cases hx : x = 0
  · simp [hx, byteLen, byteLenAux_zero]
  · obtain ⟨f, rfl⟩ : ∃ f, x = f + 1 := ⟨x - 1, by omega⟩
    simp only [byteLen, byteLenAux, hx, if_false]
    have hd : (f + 1) / 256 < f + 1 := Nat.div_lt_self (by omega) (by norm_num)
    rw [byteLenAux_congr f ((f + 1) / 256) ((f + 1) / 256) (by omega) le_rfl]

theorem byteLen_lt_pow (x : Nat) : x < 256 ^ byteLen x := by
  induction x using Nat.strong_induction_on with
  | _ x ih =>
    rw [byteLen_eq]
    by_cases hx : x = 0
    · simp [hx]
    · simp only [hx, if_false, pow_succ]
      have hd : x / 256 < x := Nat.div_lt_self (by omega) (by norm_num)
      have h1 : x / 256 < 256 ^ byteLen (x / 256) := ih _ hd
      have h2 := Nat.div_add_mod x 256
      have h3 : x % 256 < 256 := Nat.mod_lt _ (by norm_num)
      calc x < 256 * (x / 256 + 1) := by omega
      _ ≤ 256 * 256 ^ byteLen (x / 256) := by
          exact Nat.mul_le_mul_left _ (by omega)
      _ = 256 ^ byteLen (x / 256) * 256 := by ring

theorem pow_byteLen_pred_le (x : Nat) (hx : 0 < x) : 256 ^ (byteLen x - 1) ≤ x := by
  induction x using Nat.strong_induction_on with
  | _ x ih =>
    rw [byteLen_eq]
    have hx0 : x ≠ 0 := by omega
    simp only [hx0, if_false, Nat.add_sub_cancel]
    by_cases hq : x / 256 = 0
    · rw [hq, byteLen_eq]
      simpa using hx
    · have hd : x / 256 < x := Nat.div_lt_self (by omega) (by norm_num)
      have h1 : 256 ^ (byteLen (x / 256) - 1) ≤ x / 256 := ih _ hd (by omega)
      have hbl : 1 ≤ byteLen (x / 256) := by
        rw [byteLen_eq]
        simp [hq]
      calc 256 ^ byteLen (x / 256) = 256 * 256 ^ (byteLen (x / 256) - 1) := by
            rw [← pow_succ']
            congr 1
            omega
      _ ≤ 256 * (x / 256) := Nat.mul_le_mul_left _ h1
      _ ≤ x := Nat.mul_div_le x 256

theorem byteLen_le (n : Nat) : ∀ x, x < 256 ^ n → byteLen x ≤ n := by
  induction n with
  | zero =>
    intro x h
    simp only [pow_zero, Nat.lt_one_iff] at h
    simp [h, byteLen_eq]
  | succ m ih =>
    intro x h
    rw [byteLen_eq]
    by_cases hx : x = 0
    · simp [hx]
    · simp only [hx, if_false]
      have hlt : x / 256 < 256 ^ m := by
        rw [Nat.div_lt_iff_lt_mul (by norm_num)]
        calc x < 256 ^ (m + 1) := h
        _ = 256 ^ m * 256 := by ring
      exact Nat.succ_le_succ (ih _ hlt)

theorem beBytes_length (x n : Nat) : (beBytes x n).length = n := by
  induction n with
  | zero => rfl
  | succ m ih => simp [beBytes, ih]

theorem beBytes_mem_lt (x n : Nat) : ∀ b ∈ beBytes x n, b < 256 := by
  induction n with
  | zero => simp [beBytes]
  | succ m ih =>
    simp only [beBytes, List.mem_cons]
    rintro b (rfl | hb)
    · exact Nat.mod_lt _ (by norm_num)
    · exact ih b hb

theorem shiftRight_mul8 (x m : Nat) : x >>> (8 * m) = x / 256 ^ m := by
  rw [Nat.shiftRight_eq_div_pow]
  congr 1
  rw [pow_mul]
  norm_num

theorem mod_pow_succ_256 (x m : Nat) :
    x % 256 ^ (m + 1) = x % 256 ^ m + 256 ^ m * (x / 256 ^ m % 256) := by
  rw [pow_succ]
  exact Nat.mod_mul

theorem foldl_beBytes (x : Nat) : ∀ (n : Nat) (a : Nat),
    (beBytes x n).foldl (fun d b => d * 256 + b) a = a * 256 ^ n + x % 256 ^ n := by
  intro n
  induction n with
  | zero =>
    intro a
    simp [beBytes, Nat.mod_one]
  | succ m ih =>
    intro a
    simp only [beBytes, List.foldl_cons, ih, shiftRight_mul8]
    rw [mod_pow_succ_256]
    ring

theorem foldl_beBytes_self (x n : Nat) (h : x < 256 ^ n) :
    (beBytes x n).foldl (fun d b => d * 256 + b) 0 = x := by
  rw [foldl_beBytes, Nat.mod_eq_of_lt h]
  ring

theorem wrap64_eq_self (y : Int) (h1 : -2 ^ 63 ≤ y) (h2 : y < 2 ^ 63) :
    wrap64 y = y := by
  unfold wrap64
  rw [Int.emod_eq_of_lt (by omega) (by omega)]
  omega

theorem foldl_wrap_beBytes (x : Nat) : ∀ (n : Nat) (a : Int), 0 ≤ a →
    a * 256 ^ n + ((x % 256 ^ n : Nat) : Int) < 2 ^ 63 →
    (beBytes x n).foldl (fun (i : Int) (b : Nat) => wrap64 (i * 256 + (b : Int))) a =
      a * 256 ^ n + ((x % 256 ^ n : Nat) : Int) := by
  intro n
  induction n with
  | zero =>
    intro a ha hb
    simp [beBytes, Nat.mod_one]
  | succ m ih =>
    intro a ha hb
    simp only [beBytes, List.foldl_cons, shiftRight_mul8]
    have hdlt : x / 256 ^ m % 256 < 256 := Nat.mod_lt _ (by norm_num)
    have hmod : ((x % 256 ^ (m + 1) : Nat) : Int) =
        ((x % 256 ^ m : Nat) : Int) + 256 ^ m * ((x / 256 ^ m % 256 : Nat) : Int) := by
      have := mod_pow_succ_256 x m
      push_cast [this]
      ring
    have h256 : (256 : Int) ≤ 256 ^ (m + 1) := by
      calc (256 : Int) = 256 ^ 1 := by norm_num
      _ ≤ 256 ^ (m + 1) := pow_le_pow_right₀ (by norm_num) (by omega)
    have hd0 : (0 : Int) ≤ ((x / 256 ^ m % 256 : Nat) : Int) := by positivity
    have hde : ((x / 256 ^ m % 256 : Nat) : Int) ≤
        ((x / 256 ^ m % 256 : Nat) : Int) * 256 ^ m := by
      apply le_mul_of_one_le_right hd0
      exact one_le_pow₀ (by norm_num)
    have hm0 : (0 : Int) ≤ ((x % 256 ^ m : Nat) : Int) := by positivity
    have hstep : a * 256 + ((x / 256 ^ m % 256 : Nat) : Int) < 2 ^ 63 := by
      have h1 : a * 256 ≤ a * 256 ^ (m + 1) := by
        apply mul_le_mul_of_nonneg_left h256 ha
      rw [hmod] at hb
      nlinarith
    have hacc0 : (0 : Int) ≤ a * 256 + ((x / 256 ^ m % 256 : Nat) : Int) :=
      add_nonneg (mul_nonneg ha (by norm_num)) hd0
    have hwrap : wrap64 (a * 256 + ((x / 256 ^ m % 256 : Nat) : Int)) =
        a * 256 + ((x / 256 ^ m % 256 : Nat) : Int) := by
      apply wrap64_eq_self _ (by omega) hstep
    rw [hwrap, ih (a * 256 + ((x / 256 ^ m % 256 : Nat) : Int)) hacc0 ?hb2]
    case hb2 =>
      rw [hmod] at hb
      ring_nf
      ring_nf at hb
      linarith
    rw [hmod]
    ring

/-- The integer-decoding fold of `parseValue` recovers any non-negative Go
int from the payload `Packet.write` emits for it. -/
theorem decodeInt_intPayload (v : Int) (h0 : 0 ≤ v) (h1 : v < 2 ^ 63) :
    (primPayload (.int v)).foldl (fun (i : Int) (b : Nat) => wrap64 (i * 256 + (b : Int))) 0 = v := by
  by_cases hv : v = 0
  · subst hv
    have : wrap64 0 = 0 := by
      unfold wrap64
      decide
    simp [primPayload, this]
  · have hvpos : 0 < v.toNat := by omega
    have hlt : v.toNat < 256 ^ byteLen v.toNat := byteLen_lt_pow v.toNat
    simp only [primPayload, hv, if_false]
    rw [foldl_wrap_beBytes v.toNat (byteLen v.toNat) 0 le_rfl ?hbound]
    · rw [Nat.mod_eq_of_lt hlt]
      omega
    case hbound =>
      rw [Nat.mod_eq_of_lt hlt]
      omega

theorem intPayload_length (v : Int) (h0 : 0 ≤ v) (h1 : v < 2 ^ 63) :
    (primPayload (.int v)).length = intSize v := by
  have hemod : v % 2 ^ 64 = v := Int.emod_eq_of_lt h0 (by omega)
  by_cases hv : v = 0
  · subst hv
    rfl
  · simp only [primPayload, hv, if_false, beBytes_length, intSize]
    rw [show v.emod (2 ^ 64) = v from hemod]
    have hnz : v.toNat ≠ 0 := by omega
    have hbl : byteLen v.toNat ≠ 0 := by
      rw [byteLen_eq]
      simp [hnz]
    simp [hbl]

/-- Any byte string (bytes < 256) decodes, as a plain base-256 numeral,
to a value below `M * 256 ^ length` when the accumulator starts below `M`. -/
theorem natFold_lt : ∀ (bs : List Nat) (M a : Nat),
    (∀ b ∈ bs, b < 256) → a < M →
    bs.foldl (fun d b => d * 256 + b) a < M * 256 ^ bs.length := by
  intro bs
  induction bs with
  | nil =>
    intro M a _ ha
    simpa using ha
  | cons c cs ih =>
    intro M a h ha
    simp only [List.foldl_cons, List.length_cons]
    have hc : c < 256 := h c (by simp)
    have hstep : a * 256 + c < M * 256 := by nlinarith
    calc cs.foldl (fun d b => d * 256 + b) (a * 256 + c)
        < (M * 256) * 256 ^ cs.length :=
          ih (M * 256) (a * 256 + c) (fun b hb => h b (by simp [hb])) hstep
    _ = M * 256 ^ (cs.length + 1) := by ring

/-- On short byte strings the wrapping Int fold agrees with the Nat fold. -/
theorem intFold_eq_natFold : ∀ (bs : List Nat) (a : Nat),
    (∀ b ∈ bs, b < 256) → (a + 1) * 256 ^ bs.length ≤ 2 ^ 63 →
    bs.foldl (fun (i : Int) (b : Nat) => wrap64 (i * 256 + (b : Int))) (a : Int) =
      ((bs.foldl (fun d b => d * 256 + b) a : Nat) : Int) := by
  intro bs
  induction bs with
  | nil =>
    intro a _ _
    simp
  | cons c cs ih =>
    intro a h hb
    simp only [List.foldl_cons, List.length_cons] at hb ⊢
    have hc : c < 256 := h c (by simp)
    have hstep : a * 256 + c + 1 ≤ (a + 1) * 256 := by omega
    have hb' : (a * 256 + c + 1) * 256 ^ cs.length ≤ 2 ^ 63 := by
      calc (a * 256 + c + 1) * 256 ^ cs.length
          ≤ ((a + 1) * 256) * 256 ^ cs.length :=
            Nat.mul_le_mul_right _ hstep
      _ = (a + 1) * 256 ^ (cs.length + 1) := by ring
      _ ≤ 2 ^ 63 := hb
    have hsmall : (a : Int) * 256 + (c : Int) < 2 ^ 63 := by
      have h1 : a * 256 + c + 1 ≤ 2 ^ 63 := by
        calc a * 256 + c + 1 = (a * 256 + c + 1) * 1 := by ring
        _ ≤ (a * 256 + c + 1) * 256 ^ cs.length := by
            apply Nat.mul_le_mul_left
            exact Nat.one_le_pow _ _ (by norm_num)
        _ ≤ 2 ^ 63 := hb'
      have h2 : ((a * 256 + c : Nat) : Int) < ((2 ^ 63 : Nat) : Int) := by
        exact_mod_cast by omega
      push_cast at h2
      linarith
    have hacc0 : (0 : Int) ≤ (a : Int) * 256 + (c : Int) := by positivity
    have hwrap : wrap64 ((a : Int) * 256 + (c : Int)) = ((a * 256 + c : Nat) : Int) := by
      rw [wrap64_eq_self _ (by omega) hsmall]
      push_cast
      ring
    rw [hwrap, ih (a * 256 + c) (fun b hbm => h b (by simp [hbm])) hb']

/-- Counter evolution: after `k` allocations the counter holds
`(1 + k) % 2^32`. -/
theorem msgIDAfter_eq (k : Nat) : msgIDAfter k = (1 + k) % 2 ^ 32 := by
  induction k with
  | zero => simp [msgIDAfter]
  | succ n ih =>
    simp only [msgIDAfter, newID, ih]
    omega

/-! ### Structural lemmas for the BER round trip -/

theorem headerLen_length (sz : Nat) :
    (headerLen sz).length = 1 + (if sz < 128 then 0 else byteLen sz) := by
  unfold headerLen
  split <;> simp [beBytes_length]
  omega

theorem totalFor_eq (sz : Nat) :
    totalFor sz = sz + 1 + (headerLen sz).length := by
  rw [headerLen_length, totalFor]
  omega

theorem ascii_runeUtf8_flatten : ∀ s : List Nat, (∀ b ∈ s, b < 128) →
    (s.map runeUtf8).flatten = s := by
  intro s
  induction s with
  | nil => intro _; rfl
  | cons c cs ih =>
    intro h
    have hc : c < 128 := h c (by simp)
    simp only [List.map_cons, List.flatten_cons, runeUtf8, hc, if_pos]
    rw [ih fun b hb => h b (by simp [hb])]
    rfl

theorem typedFor_bool_inv (cls tag : Nat) (b : Bool)
    (h : (BerValue.bool b).typedFor cls tag = true) : cls = 0 ∧ tag = 1 := by
  simpa [BerValue.typedFor] using h

theorem typedFor_int_inv (cls tag : Nat) (n : Int)
    (h : (BerValue.int n).typedFor cls tag = true) :
    cls = 0 ∧ (tag = 2 ∨ tag = 10) ∧ 0 ≤ n ∧ n < 2 ^ 63 := by
  simpa [BerValue.typedFor, Bool.and_eq_true, Bool.or_eq_true, and_assoc] using h

theorem typedFor_str_inv (cls tag : Nat) (s : List Nat)
    (h : (BerValue.str s).typedFor cls tag = true) :
    cls = 0 ∧ ((tag = 12 ∧ ∀ b ∈ s, b < 256) ∨ (tag = 19 ∧ ∀ b ∈ s, b < 128)) := by
  simpa [BerValue.typedFor, Bool.and_eq_true, Bool.or_eq_true, List.all_eq_true,
    and_assoc] using h

theorem typedFor_bytes_inv (cls tag : Nat) (d : List Nat)
    (h : (BerValue.bytes d).typedFor cls tag = true) :
    (cls ≠ 0 ∨ (tag ≠ 1 ∧ tag ≠ 2 ∧ tag ≠ 10 ∧ tag ≠ 12 ∧ tag ≠ 19)) ∧
      ∀ b ∈ d, b < 256 := by
  simpa [BerValue.typedFor, Bool.and_eq_true, Bool.or_eq_true, List.all_eq_true,
    and_assoc] using h

theorem primPayload_length_typed (cls tag : Nat) (v : BerValue)
    (h : v.typedFor cls tag = true) : (primPayload v).length = primSize v := by
  cases v with
  | bytes d => rfl
  | str s => rfl
  | bool b => rfl
  | int n =>
    obtain ⟨-, -, h0, h1⟩ := typedFor_int_inv cls tag n h
    exact intPayload_length n h0 h1

theorem primPayload_mem_lt (cls tag : Nat) (v : BerValue)
    (h : v.typedFor cls tag = true) : ∀ b ∈ primPayload v, b < 256 := by
  cases v with
  | bytes d => exact (typedFor_bytes_inv cls tag d h).2
  | str s =>
    obtain ⟨-, h12 | h19⟩ := typedFor_str_inv cls tag s h
    · exact h12.2
    · exact fun b hb => lt_trans (h19.2 b hb) (by norm_num)
  | bool b =>
    cases b <;> simp [primPayload]
  | int n =>
    simp only [primPayload]
    split
    · simp
    · exact beBytes_mem_lt _ _

/-- `parseValue` inverts the primitive payload for well-typed Universal
values. -/
theorem parseValue_primPayload (tag : Nat) (v : BerValue)
    (h : v.typedFor 0 tag = true) :
    parseValue tag (primPayload v) = .ok v := by
  cases v with
  | bool b =>
    obtain ⟨-, ht⟩ := typedFor_bool_inv 0 tag b h
    subst ht
    cases b <;> rfl
  | int n =>
    obtain ⟨-, ht, h0, h1⟩ := typedFor_int_inv 0 tag n h
    have hfold := decodeInt_intPayload n h0 h1
    rcases ht with rfl | rfl
    · simp only [parseValue, hfold]
      norm_num
    · simp only [parseValue, hfold]
      norm_num
  | str s =>
    obtain ⟨-, hcase⟩ := typedFor_str_inv 0 tag s h
    rcases hcase with ⟨rfl, -⟩ | ⟨rfl, hascii⟩
    · rfl
    · simp only [parseValue, primPayload]
      norm_num
      exact ascii_runeUtf8_flatten s hascii
  | bytes d =>
    obtain ⟨hcase, -⟩ := typedFor_bytes_inv 0 tag d h
    rcases hcase with h0 | ⟨h1, h2, h10, h12, h19⟩
    · exact absurd rfl h0
    · simp [parseValue, primPayload, h1, h2, h10, h12, h19]

theorem wellTyped_inv (cls : Nat) (primitive : Bool) (tag : Nat)
    (value : Option BerValue) (items : List Packet)
    (hw : (Packet.mk cls primitive tag value items).wellTyped = true) :
    cls < 4 ∧ tag < 32 ∧
    (primitive = true → items = [] ∧
      ∃ v, value = some v ∧ v.typedFor cls tag = true) ∧
    (primitive = false → value = none ∧ wellTypedItems items = true) := by
  cases primitive with
  | true =>
    cases value with
    | none =>
      simp [Packet.wellTyped] at hw
    | some v =>
      simp only [Packet.wellTyped, if_true, Bool.and_eq_true, decide_eq_true_eq,
        List.isEmpty_iff] at hw
      obtain ⟨⟨h1, h2⟩, h3, h4⟩ := hw
      exact ⟨h1, h2, fun _ => ⟨h3, v, rfl, h4⟩, fun hh => nomatch hh⟩
  | false =>
    cases value with
    | some v =>
      simp [Packet.wellTyped] at hw
    | none =>
      simp only [Packet.wellTyped, if_false, Bool.and_eq_true, decide_eq_true_eq,
        Option.isNone_none] at hw
      obtain ⟨⟨h1, h2⟩, h4⟩ := hw
      refine ⟨h1, h2, ?_, ?_⟩
      · intro hh
        exact nomatch hh
      · intro _
        exact ⟨rfl, h4⟩

theorem size_prim (cls tag : Nat) (v : BerValue) (items : List Packet) :
    Packet.size (.mk cls true tag (some v) items) =
      .ok (primSize v, totalFor (primSize v)) := by
  simp only [Packet.size, totalFor]
  by_cases h : primSize v < 128 <;> simp [h]

theorem size_constructed (cls tag : Nat) (items : List Packet)
    (value : Option BerValue) (n : Nat) (h : sizeItems items = .ok n) :
    Packet.size (.mk cls false tag value items) = .ok (n, totalFor n) := by
  simp only [Packet.size, h, totalFor]
  by_cases hn : n < 128 <;> simp [hn]

theorem encodeItems_nil_inv (bs : List Nat) (h : encodeItems [] = .ok bs) :
    bs = [] := by
  simpa [encodeItems] using h.symm

theorem encodeItems_cons_inv (p : Packet) (ps : List Packet) (bs : List Nat)
    (h : encodeItems (p :: ps) = .ok bs) :
    ∃ b rest, p.encode = .ok b ∧ encodeItems ps = .ok rest ∧ bs = b ++ rest := by
  simp only [encodeItems] at h
  cases hb : p.encode with
  | error e =>
    rw [hb] at h
    exact absurd h (by simp)
  | ok b =>
    rw [hb] at h
    cases hr : encodeItems ps with
    | error e =>
      rw [hr] at h
      exact absurd h (by simp)
    | ok rest =>
      rw [hr] at h
      exact ⟨b, rest, rfl, rfl, by simpa using h.symm⟩

theorem encode_prim_inv (cls tag : Nat) (v : BerValue) (items : List Packet)
    (bs : List Nat)
    (he : Packet.encode (.mk cls true tag (some v) items) = .ok bs) :
    totalFor (primSize v) ≤ maxPacketSize ∧
    bs = ((cls % 4) * 64 + (if true then 0 else 32) + tag % 32) ::
      headerLen (primSize v) ++ primPayload v := by
  simp only [Packet.encode, size_prim] at he
  split at he
  case isTrue hm => exact absurd he (by simp)
  case isFalse hm =>
    exact ⟨by omega, (Except.ok.inj he).symm⟩

theorem encode_constructed_inv (cls tag : Nat) (value : Option BerValue)
    (items : List Packet) (bs : List Nat)
    (he : Packet.encode (.mk cls false tag value items) = .ok bs) :
    value = none ∧ ∃ n payload, sizeItems items = .ok n ∧
      encodeItems items = .ok payload ∧ totalFor n ≤ maxPacketSize ∧
      bs = ((cls % 4) * 64 + (if false then 0 else 32) + tag % 32) ::
        headerLen n ++ payload := by
  have hsz : ∃ n, sizeItems items = .ok n := by
    cases hs : sizeItems items with
    | error e =>
      rw [Packet.encode] at he
      have : Packet.size (.mk cls false tag value items) = .error e := by
        simp [Packet.size, hs]
      rw [this] at he
      exact absurd he (by simp)
    | ok n => exact ⟨n, rfl⟩
  obtain ⟨n, hs⟩ := hsz
  simp only [Packet.encode, size_constructed cls tag items value n hs] at he
  split at he
  case isTrue hm => exact absurd he (by simp)
  case isFalse hm =>
    cases value with
    | some v =>
      exact absurd he (by simp)
    | none =>
      cases hp : encodeItems items with
      | error e =>
        rw [hp] at he
        exact absurd he (by simp)
      | ok payload =>
        rw [hp] at he
        exact ⟨rfl, n, payload, hs, rfl, by omega, (Except.ok.inj he).symm⟩

mutual

/-- The bytes `Packet.write` emits are exactly as many as `Packet.Size`
announces, for well-typed packets. -/
theorem encode_length (P : Packet) (bs : List Nat) (hw : P.wellTyped = true)
    (he : P.encode = .ok bs) :
    ∃ sz, P.size = .ok (sz, totalFor sz) ∧ bs.length = totalFor sz := by
  obtain ⟨cls, primitive, tag, value, items⟩ := P
  obtain ⟨h1, h2, hp, hc⟩ := wellTyped_inv _ _ _ _ _ hw
  cases primitive with
  | true =>
    obtain ⟨hitems, v, rfl, hv⟩ := hp rfl
    obtain ⟨hmax, rfl⟩ := encode_prim_inv cls tag v items _ he
    refine ⟨primSize v, size_prim cls tag v items, ?_⟩
    simp only [List.length_cons, List.length_append, headerLen_length,
      primPayload_length_typed cls tag v hv, totalFor]
    omega
  | false =>
    obtain ⟨rfl, hwi⟩ := hc rfl
    obtain ⟨-, n, payload, hs, hp', hmax, rfl⟩ :=
      encode_constructed_inv cls tag none items _ he
    obtain ⟨m, hm, hlen⟩ := encodeItems_length items payload hwi hp'
    have hmn : m = n := by
      rw [hs] at hm
      exact (Except.ok.inj hm).symm
    subst hmn
    refine ⟨m, size_constructed cls tag items none m hs, ?_⟩
    simp only [List.length_cons, List.length_append, headerLen_length, hlen,
      totalFor]
    omega

/-- `encodeItems` writes exactly `sizeItems` bytes, for well-typed lists. -/
theorem encodeItems_length (Ps : List Packet) (bs : List Nat)
    (hw : wellTypedItems Ps = true) (he : encodeItems Ps = .ok bs) :
    ∃ n, sizeItems Ps = .ok n ∧ bs.length = n := by
  cases Ps with
  | nil =>
    have hb := encodeItems_nil_inv bs he
    subst hb
    exact ⟨0, rfl, rfl⟩
  | cons p ps =>
    simp only [wellTypedItems, Bool.and_eq_true] at hw
    obtain ⟨b, rest, hb, hrest, rfl⟩ := encodeItems_cons_inv p ps bs he
    obtain ⟨sz, hsz, hlb⟩ := encode_length p b hw.1 hb
    obtain ⟨n, hn, hln⟩ := encodeItems_length ps rest hw.2 hrest
    refine ⟨totalFor sz + n, ?_, ?_⟩
    · simp [sizeItems, hsz, hn]
    · simp [hlb, hln]

end

theorem parse_shape (f : Nat) (b0 sz : Nat) (payload rest : List Nat)
    (hplen : payload.length = sz) (hmax : sz ≤ maxPacketSize) :
    parsePacketF (f + 1) ((b0 :: headerLen sz ++ payload) ++ rest) =
      (if (b0 &&& 0x20 == 0 : Bool) then
        if b0 >>> 6 = 0 then
          match parseValue (b0 &&& 0x1f) payload with
          | .error e => .error e
          | .ok v => .ok (.mk (b0 >>> 6) (b0 &&& 0x20 == 0) (b0 &&& 0x1f)
              (some v) [], (b0 :: headerLen sz ++ payload).length)
        else
          .ok (.mk (b0 >>> 6) (b0 &&& 0x20 == 0) (b0 &&& 0x1f)
            (some (.bytes payload)) [], (b0 :: headerLen sz ++ payload).length)
      else
        match parseItemsF f payload with
        | .error e => .error e
        | .ok items => .ok (.mk (b0 >>> 6) (b0 &&& 0x20 == 0) (b0 &&& 0x1f)
            none items, (b0 :: headerLen sz ++ payload).length)) := by
  by_cases hsz : sz < 128
  · -- short form: headerLen sz = [sz]
    have hl : headerLen sz = [sz] := by simp [headerLen, hsz]
    have hand : sz &&& 128 = 0 := land128_eq_zero sz hsz
    rw [hl]
    simp only [List.cons_append, List.nil_append, List.singleton_append,
      List.append_assoc]
    rw [parsePacketF]
    simp only [hand, bne_self_eq_false, Bool.false_eq_true, if_false,
      List.length_cons, List.length_append, hplen]
    rw [if_neg (by omega)]
    have hdata : ((sz :: (payload ++ rest)).drop 1).take sz = payload := by
      simp only [List.drop_succ_cons, List.drop_zero]
      rw [← hplen, List.take_left]
    simp only [List.drop_succ_cons, List.drop_zero]
    rw [← hplen, List.take_left, hplen]
    have hc : 2 + sz = sz + 1 + 1 := by omega
    rw [hc]
  · -- long form: headerLen sz = (128 + byteLen sz) :: beBytes sz (byteLen sz)
    have hl : headerLen sz = (128 + byteLen sz) :: beBytes sz (byteLen sz) := by
      simp [headerLen, hsz]
    set n := byteLen sz with hn
    have hn8 : n ≤ 8 := by
      have h4 : n ≤ 4 := byteLen_le 4 sz (by
        calc sz ≤ maxPacketSize := hmax
        _ < 256 ^ 4 := by decide)
      omega
    have hn1 : n ≠ 0 := by
      have hz : sz ≠ 0 := by omega
      rw [hn, byteLen_eq]
      simp [hz]
    obtain ⟨hb128, hb127⟩ := longform_bits n hn8
    rw [hl]
    simp only [List.cons_append, List.append_assoc]
    rw [parsePacketF]
    simp only [hb128, hb127]
    rw [if_pos (by simp)]
    rw [if_neg hn1, if_neg (by omega)]
    rw [if_neg (by
      simp only [List.length_cons, List.length_append, beBytes_length, hplen]
      omega)]
    have htake : List.take n (List.drop 2 (b0 :: (128 + n) ::
        (beBytes sz n ++ (payload ++ rest)))) = beBytes sz n := by
      simp only [List.drop_succ_cons, List.drop_zero]
      exact List.take_left' (beBytes_length sz n)
    have hfold : List.foldl (fun d b => d * 256 + b) 0 (beBytes sz n) = sz :=
      foldl_beBytes_self sz n (hn ▸ byteLen_lt_pow sz)
    rw [htake, hfold]
    rw [if_neg (by omega)]
    simp only []
    rw [if_neg (by
      simp only [List.length_cons, List.length_append, beBytes_length, hplen]
      omega)]
    have hdata : List.take sz (List.drop (2 + n) (b0 :: (128 + n) ::
        (beBytes sz n ++ (payload ++ rest)))) = payload := by
      have h2n : 2 + n = n + 1 + 1 := by omega
      rw [h2n]
      simp only [List.drop_succ_cons]
      rw [List.drop_left' (beBytes_length sz n), List.take_left' hplen]
    rw [hdata]
    have hcount : 2 + n + sz =
        (b0 :: (128 + n) :: (beBytes sz n ++ payload)).length := by
      simp only [List.length_cons, List.length_append, beBytes_length, hplen]
      omega
    rw [hcount]



theorem typedFor_nonzero_cls (cls tag : Nat) (v : BerValue)
    (h : v.typedFor cls tag = true) (hc : cls ≠ 0) : ∃ d, v = .bytes d := by
  cases v with
  | bytes d => exact ⟨d, rfl⟩
  | str s => exact absurd (typedFor_str_inv cls tag s h).1 hc
  | int n => exact absurd (typedFor_int_inv cls tag n h).1 hc
  | bool b => exact absurd (typedFor_bool_inv cls tag b h).1 hc

mutual

theorem parse_encode_go (P : Packet) (bs rest : List Nat) (fuel : Nat)
    (hw : P.wellTyped = true) (he : P.encode = .ok bs)
    (hf : 2 * bs.length ≤ fuel + 1) :
    parsePacketF fuel (bs ++ rest) = .ok (P, bs.length) := by
  obtain ⟨cls, primitive, tag, value, items⟩ := P
  obtain ⟨h1, h2, hpr, hco⟩ := wellTyped_inv _ _ _ _ _ hw
  obtain ⟨sz0, hsz0, hlen0⟩ := encode_length _ bs hw he
  have hbs2 : 2 ≤ bs.length := by
    rw [hlen0]
    unfold totalFor
    omega
  obtain ⟨f, rfl⟩ : ∃ f, fuel = f + 1 := ⟨fuel - 1, by omega⟩
  have hcls4 : cls % 4 = cls := Nat.mod_eq_of_lt h1
  have htag32 : tag % 32 = tag := Nat.mod_eq_of_lt h2
  cases primitive with
  | true =>
    obtain ⟨hitems, v, rfl, hv⟩ := hpr rfl
    subst hitems
    obtain ⟨hmax, rfl⟩ := encode_prim_inv cls tag v [] _ he
    have hplen : (primPayload v).length = primSize v :=
      primPayload_length_typed cls tag v hv
    have hmax' : primSize v ≤ maxPacketSize := by
      unfold totalFor at hmax
      omega
    rw [parse_shape f _ (primSize v) (primPayload v) rest hplen hmax']
    have hb0 : (cls % 4) * 64 + (if true then 0 else 32) + tag % 32 =
        cls * 64 + (if true then 0 else 32) + tag := by
      rw [hcls4, htag32]
    rw [hb0]
    obtain ⟨hc6, hc32, hc31⟩ := header_bits cls tag true h1 h2
    rw [hc6, hc32, hc31, if_pos rfl]
    by_cases hc0 : cls = 0
    · subst hc0
      rw [if_pos rfl, parseValue_primPayload tag v hv]
    · rw [if_neg hc0]
      obtain ⟨d, rfl⟩ := typedFor_nonzero_cls cls tag v hv hc0
      rfl
  | false =>
    obtain ⟨hvn, hwi⟩ := hco rfl
    subst hvn
    obtain ⟨-, n, payload, hs, hp', hmax, rfl⟩ :=
      encode_constructed_inv cls tag none items _ he
    obtain ⟨m, hm, hplen'⟩ := encodeItems_length items payload hwi hp'
    have hmn : m = n := by
      rw [hs] at hm
      exact (Except.ok.inj hm).symm
    subst hmn
    have hmax' : m ≤ maxPacketSize := by
      unfold totalFor at hmax
      omega
    rw [parse_shape f _ m payload rest hplen' hmax']
    have hb0 : (cls % 4) * 64 + (if false then 0 else 32) + tag % 32 =
        cls * 64 + (if false then 0 else 32) + tag := by
      rw [hcls4, htag32]
    rw [hb0]
    obtain ⟨hc6, hc32, hc31⟩ := header_bits cls tag false h1 h2
    rw [hc6, hc32, hc31]
    rw [if_neg (by simp)]
    have hfitems : 2 * payload.length ≤ f := by
      simp only [List.length_cons, List.length_append, headerLen_length,
        hplen'] at hf
      omega
    rw [parse_encode_items_go items payload f hwi hp' hfitems]

theorem parse_encode_items_go (Ps : List Packet) (bs : List Nat) (fuel : Nat)
    (hw : wellTypedItems Ps = true) (he : encodeItems Ps = .ok bs)
    (hf : 2 * bs.length ≤ fuel) :
    parseItemsF fuel bs = .ok Ps := by
  cases Ps with
  | nil =>
    have hb := encodeItems_nil_inv bs he
    subst hb
    cases fuel <;> rfl
  | cons p ps =>
    simp only [wellTypedItems, Bool.and_eq_true] at hw
    obtain ⟨b, restb, hb, hrest, rfl⟩ := encodeItems_cons_inv p ps bs he
    obtain ⟨szp, hszp, hlenp⟩ := encode_length p b hw.1 hb
    have hb2 : 2 ≤ b.length := by
      rw [hlenp]
      unfold totalFor
      omega
    have hflen : 2 * (b.length + restb.length) ≤ fuel := by
      simpa [List.length_append] using hf
    obtain ⟨f, rfl⟩ : ∃ f, fuel = f + 1 := ⟨fuel - 1, by omega⟩
    obtain ⟨d, ds, hds⟩ : ∃ d ds, b ++ restb = d :: ds := by
      cases hbb : b with
      | nil =>
        rw [hbb] at hb2
        simp at hb2
      | cons x xs => exact ⟨x, xs ++ restb, by simp [hbb]⟩
    rw [hds]
    simp only [parseItemsF]
    rw [← hds]
    rw [parse_encode_go p b restb f hw.1 hb (by omega)]
    simp only [List.drop_left]
    rw [parse_encode_items_go ps restb f hw.2 hrest (by omega)]

end



/-- C2 amended: for every well-typed packet whose encoding the writer
accepts, parsing the produced bytes returns the packet itself — equal class,
form, tag, value and children, deeply — consuming exactly those bytes. -/
theorem parse_encode_roundtrip (P : Packet) (bs : List Nat)
    (hw : P.wellTyped = true) (he : P.encode = .ok bs) :
    ParsePacket bs = .ok (P, bs.length) := by
  have h := parse_encode_go P bs [] (2 * bs.length + 1) hw he (by omega)
  simpa [ParsePacket] using h

/-- Witness for `parse_encode_roundtrip`: the Sequence(Integer 0x1234)
packet of ber_test.go. -/
theorem parse_encode_roundtrip_witness :
    ParsePacket [0x30, 0x04, 0x02, 0x02, 0x12, 0x34] =
      .ok (Packet.mk 0 false 16 none
        [.mk 0 true 2 (some (.int 0x1234)) []], 6) :=
  parse_encode_roundtrip
    (Packet.mk 0 false 16 none [.mk 0 true 2 (some (.int 0x1234)) []])
    [0x30, 0x04, 0x02, 0x02, 0x12, 0x34] rfl rfl

/-- C9: for every non-negative integer value, the emitted payload has
exactly `intSize` bytes, zero is the single byte 0x00, the codec's decoding
recovers the value, and no shorter byte string decodes to it (minimality,
with zero special-cased as the claim states). -/
theorem intEncoding_minimal (v : Int) (h0 : 0 ≤ v) (h1 : v < 2 ^ 63) :
    (primPayload (.int v)).length = intSize v ∧
    (v = 0 → primPayload (.int v) = [0]) ∧
    parseValue 2 (primPayload (.int v)) = .ok (.int v) ∧
    (v ≠ 0 → ∀ bs : List Nat, (∀ b ∈ bs, b < 256) →
      bs.length < (primPayload (.int v)).length →
      parseValue 2 bs ≠ .ok (.int v)) := by
  refine ⟨intPayload_length v h0 h1, ?_, ?_, ?_⟩
  · intro hv
    simp [primPayload, hv]
  · have hfold := decodeInt_intPayload v h0 h1
    simp only [parseValue]
    norm_num [hfold]
  · intro hv bs hblt hlen hpv
    have hvpos : 0 < v.toNat := by omega
    have hlenp : (primPayload (.int v)).length = byteLen v.toNat := by
      simp [primPayload, hv, beBytes_length]
    rw [hlenp] at hlen
    have hvn8 : v.toNat < 256 ^ 8 := by
      have : v.toNat < 2 ^ 63 := by omega
      calc v.toNat < 2 ^ 63 := this
      _ < 256 ^ 8 := by norm_num
    have hn8 : byteLen v.toNat ≤ 8 := byteLen_le 8 v.toNat hvn8
    simp only [parseValue] at hpv
    norm_num at hpv
    have hw : bs.foldl (fun (i : Int) (b : Nat) => wrap64 (i * 256 + (b : Int))) 0 = v := hpv
    have hnat := intFold_eq_natFold bs 0 hblt (by
      have hle7 : bs.length ≤ 7 := by omega
      calc (0 + 1) * 256 ^ bs.length ≤ 1 * 256 ^ 7 := by
            apply Nat.mul_le_mul (by norm_num)
            exact Nat.pow_le_pow_right (by norm_num) hle7
      _ ≤ 2 ^ 63 := by norm_num)
    norm_num at hnat
    have hlt : bs.foldl (fun d b => d * 256 + b) 0 < 256 ^ bs.length := by
      have h := natFold_lt bs 1 0 hblt (by norm_num)
      simpa using h
    have hle : 256 ^ bs.length ≤ 256 ^ (byteLen v.toNat - 1) :=
      Nat.pow_le_pow_right (by norm_num) (by omega)
    have hpred : 256 ^ (byteLen v.toNat - 1) ≤ v.toNat :=
      pow_byteLen_pred_le v.toNat hvpos
    rw [hnat] at hw
    omega

/-- Witness for `intEncoding_minimal` at value 0x1234. -/
theorem intEncoding_minimal_witness :
    (primPayload (.int 0x1234)).length = intSize 0x1234 ∧
    ((0x1234 : Int) = 0 → primPayload (.int 0x1234) = [0]) ∧
    parseValue 2 (primPayload (.int 0x1234)) = .ok (.int 0x1234) ∧
    ((0x1234 : Int) ≠ 0 → ∀ bs : List Nat, (∀ b ∈ bs, b < 256) →
      bs.length < (primPayload (.int 0x1234)).length →
      parseValue 2 bs ≠ .ok (.int 0x1234)) :=
  intEncoding_minimal 0x1234 (by norm_num) (by norm_num)

/-- C5 amended: message IDs are the counter value after an atomic increment,
so the `(i+1)`-st request draws ID `i + 2`; before the 32-bit counter wraps,
IDs are strictly increasing (hence not reused while pending). -/
theorem requestID_strict_mono (i j : Nat) (hij : i < j) (hj : j + 2 < 2 ^ 32) :
    requestID i = i + 2 ∧ requestID j = j + 2 ∧ requestID i < requestID j := by
  have hi : requestID i = i + 2 := by
    simp only [requestID, newID, msgIDAfter_eq]
    omega
  have hjj : requestID j = j + 2 := by
    simp only [requestID, newID, msgIDAfter_eq]
    omega
  exact ⟨hi, hjj, by omega⟩

/-- Witness for `requestID_strict_mono` at the first two requests. -/
theorem requestID_strict_mono_witness :
    requestID 0 = 2 ∧ requestID 1 = 3 ∧ requestID 0 < requestID 1 :=
  requestID_strict_mono 0 1 (by decide) (by decide)

/-- C5 counterexample: the first request carries message ID 2, not 1 — the
counter starts at 1 and `atomic.AddUint32` returns the incremented value. -/
theorem firstRequestID_ne_one : requestID 0 = 2 ∧ requestID 0 ≠ 1 :=
  ⟨rfl, by decide⟩

/-- C8: a Success result code yields no error; any non-zero code yields the
typed error carrying that code, the matched DN and the diagnostic message —
in particular InvalidCredentials yields an error with code 49. -/
theorem bindResult_err_code (r : BaseResponse) :
    (r.code = ResultSuccess → bindResult r = none) ∧
    (r.code ≠ ResultSuccess → bindResult r = some r) ∧
    (r.code = ResultInvalidCredentials →
      ∃ e : BaseResponse, bindResult r = some e ∧ e.code = 49 ∧
        e.matchedDN = r.matchedDN ∧ e.message = r.message) := by
  refine ⟨fun h => ?_, fun h => ?_, fun h => ?_⟩
  · simp [bindResult, BaseResponse.err, h, ResultSuccess]
  · simp only [ResultSuccess] at h
    simp [bindResult, BaseResponse.err, h]
  · refine ⟨r, ?_, ?_, rfl, rfl⟩
    · simp [bindResult, BaseResponse.err, h, ResultInvalidCredentials]
    · simpa [ResultInvalidCredentials] using h

/-- Witness for `bindResult_err_code`: a Bind answered with
InvalidCredentials surfaces a typed error with code 49. -/
theorem bindResult_err_code_witness :
    bindResult ⟨1, 49, "", "invalid credentials"⟩ =
      some ⟨1, 49, "", "invalid credentials"⟩ :=
  (bindResult_err_code ⟨1, 49, "", "invalid credentials"⟩).2.1 (by decide)

/-- C3 amended: a request whose application tag has no dispatch case gets
exactly one reply, with result code UnwillingToPerform (53) and the
unsupported-request-tag diagnostic, and the connection stays open (the
source clears the `end` flag for `UnsupportedRequestTagError`, so the read
loop continues). -/
theorem unknownTag_reply_keeps_conn (tag : Nat) (h : ¬ tag ∈ handledTags) :
    ∃ e, processRequestDispatch tag = some e ∧
      serveHandleError tag e =
        ⟨[⟨tag + 1, ResultUnwillingToPerform, "",
           "unsupported request tag " ++ toString tag⟩], false⟩ := by
  refine ⟨.unsupportedRequestTag tag, ?_, rfl⟩
  simp [processRequestDispatch, h]

/-- Witness for `unknownTag_reply_keeps_conn` at tag 17. -/
theorem unknownTag_reply_keeps_conn_witness :
    ∃ e, processRequestDispatch 17 = some e ∧
      serveHandleError 17 e =
        ⟨[⟨18, ResultUnwillingToPerform, "", "unsupported request tag 17"⟩],
         false⟩ :=
  unknownTag_reply_keeps_conn 17 (by decide)

/-- C3 counterexample: at tag 100 the reply is written but the connection is
NOT closed afterwards, contradicting the claim's "and then closes the
connection". -/
theorem unknownTag_does_not_close :
    processRequestDispatch 100 = some (.unsupportedRequestTag 100) ∧
    (serveHandleError 100 (.unsupportedRequestTag 100)).closesConn = false ∧
    (serveHandleError 100 (.unsupportedRequestTag 100)).replies.length = 1 :=
  ⟨rfl, rfl, rfl⟩

/-- C4: AbandonRequest (tag 16) has no case in the dispatch switch, so it
falls to the default branch and the server WRITES a reply — one
UnwillingToPerform response — contrary to RFC 4511 and the spec's "MUST NOT
send a reply". -/
theorem abandon_gets_reply :
    ¬ ApplicationAbandonRequest ∈ handledTags ∧
    processRequestDispatch ApplicationAbandonRequest =
      some (.unsupportedRequestTag 16) ∧
    (serveHandleError ApplicationAbandonRequest
      (.unsupportedRequestTag 16)).replies =
      [⟨17, ResultUnwillingToPerform, "", "unsupported request tag 16"⟩] :=
  ⟨by decide, rfl, rfl⟩

/-- C6 amended: the Root DSE response is exactly one entry with DN "";
with no requested attributes it carries only `objectClass=top`, and
otherwise it carries precisely the configured attributes whose LOWERCASED
name occurs verbatim in the requested set, or all of them when `+` is
requested (requested names are not themselves lowercased). -/
theorem rootDSE_characterisation (cfg : List (String × List String))
    (req : List String) :
    ∃ entry : SearchResult, (rootDSE cfg req).results = [entry] ∧
      entry.dn = "" ∧
      (req = [] → entry.attributes = [("objectClass", [strBytes "top"])]) ∧
      (req ≠ [] → ∀ name vals, ((name, vals) ∈ entry.attributes ↔
        ∃ svals, (name, svals) ∈ cfg ∧ vals = svals.map strBytes ∧
          (req.contains "+" || req.contains (toLowerStr name)) = true)) := by
  by_cases hreq : req = []
  · subst hreq
    exact ⟨⟨"", [("objectClass", [strBytes "top"])]⟩, rfl, rfl, fun _ => rfl,
      fun h => absurd rfl h⟩
  · have hne : req.isEmpty = false := by
      cases req with
      | nil => exact absurd rfl hreq
      | cons a as => rfl
    refine ⟨⟨"", cfg.filterMap fun nv =>
      if req.contains "+" || req.contains (toLowerStr nv.1) then
        some (nv.1, nv.2.map strBytes)
      else none⟩, ?_, rfl, fun h => absurd h hreq, fun _ name vals => ?_⟩
    · simp [rootDSE, hne]
    · constructor
      · intro hmem
        rcases List.mem_filterMap.1 hmem with ⟨⟨n, sv⟩, hin, hf⟩
        by_cases hc : (req.contains "+" || req.contains (toLowerStr n)) = true
        · rw [if_pos hc] at hf
          have h1 : n = name := congrArg Prod.fst (Option.some.inj hf)
          have h2 : sv.map strBytes = vals := congrArg Prod.snd (Option.some.inj hf)
          subst h1
          exact ⟨sv, hin, h2.symm, hc⟩
        · rw [if_neg hc] at hf
          exact absurd hf (by simp)
      · rintro ⟨svals, hin, hv, hcond⟩
        refine List.mem_filterMap.2 ⟨(name, svals), hin, ?_⟩
        rw [if_pos hcond, hv]

/-- Witness for `rootDSE_characterisation` on the default configuration's
`supportedLDAPVersion` attribute requested in lowercase. -/
theorem rootDSE_characterisation_witness :
    ∃ entry : SearchResult,
      (rootDSE [("supportedLDAPVersion", ["3"])]
        ["supportedldapversion"]).results = [entry] ∧
      entry.dn = "" ∧
      (["supportedldapversion"] = ([] : List String) →
        entry.attributes = [("objectClass", [strBytes "top"])]) ∧
      ((["supportedldapversion"] : List String) ≠ [] → ∀ name vals,
        ((name, vals) ∈ entry.attributes ↔
          ∃ svals, (name, svals) ∈ [("supportedLDAPVersion", ["3"])] ∧
            vals = svals.map strBytes ∧
            (List.contains ["supportedldapversion"] "+" ||
             List.contains ["supportedldapversion"] (toLowerStr name)) = true)) :=
  rootDSE_characterisation [("supportedLDAPVersion", ["3"])]
    ["supportedldapversion"]

/-- C6 counterexample: `vendorName` is configured and `VENDORNAME` is
requested — a case-insensitive match — yet the synthesized entry includes
nothing, because the code only lowercases the configured name and looks the
result up verbatim among the requested names. -/
theorem rootDSE_uppercase_request_excluded :
    toLowerStr "VENDORNAME" = toLowerStr "vendorName" ∧
    (rootDSE [("vendorName", ["Acme"])] ["VENDORNAME"]).results =
      [⟨"", []⟩] :=
  ⟨rfl, rfl⟩

/-- C1: the `escapes` table maps `'|'` (code 0x7c) to `\3c` — the two hex
digits of `'<'`, not of `'|'` — so printing `EqualityMatch{"a", "|"}` gives
`(a=\3c)`, which re-parses to `EqualityMatch{"a", "<"}`: the escape is not
the character's own hex code and the round trip is broken.  (`[124]` is the
byte of `|`, `[60]` that of `<`.) -/
theorem filterEscape_pipe_breaks_roundtrip :
    Filter.string (.equalityMatch ['a'] [124]) =
      ['(', 'a', '=', '\\', '3', 'c', ')'] ∧
    ParseFilter ['(', 'a', '=', '\\', '3', 'c', ')'] =
      .ok (.equalityMatch ['a'] [60]) ∧
    Filter.equalityMatch ['a'] [60] ≠ .equalityMatch ['a'] [124] :=
  ⟨rfl, rfl, by simp [Filter.equalityMatch.injEq]⟩

/-- C2 counterexample: the writer accepts a Universal OctetString packet
whose Go value is the string "A" (and its total size is 3 bytes, far below
the maximum), but parsing the 3 encoded bytes yields the value as `[]byte`,
not `string` — the decoded value differs, so Parse(Encode(P)) ≢ P. -/
theorem str_octetString_not_roundtripped :
    (Packet.mk 0 true 4 (some (.str [65])) []).encode = .ok [4, 1, 65] ∧
    ParsePacket [4, 1, 65] = .ok (.mk 0 true 4 (some (.bytes [65])) [], 3) ∧
    Packet.mk 0 true 4 (some (.bytes [65])) [] ≠
      Packet.mk 0 true 4 (some (.str [65])) [] :=
  ⟨rfl, rfl, by simp [Packet.mk.injEq]⟩

/-- C10: with no results and code Success, `WritePackets` emits the
SearchResultDone message with the ORIGINAL code 0 (the packet is built
before the code is rewritten); only the stored response is left with
NoSuchObject (32). -/
theorem searchDone_emits_success_code :
    SearchResponse.writePackets 1 ⟨⟨0, 0, "", ""⟩, []⟩ =
      ([.mk 0 false 16 none
          [.mk 0 true 2 (some (.int 1)) [],
           .mk 1 false 5 none
             [.mk 0 true 10 (some (.int 0)) [],
              .mk 0 true 4 (some (.str [])) [],
              .mk 0 true 4 (some (.str [])) []]]],
       ⟨⟨0, 32, "", ""⟩, []⟩) := rfl

/-- The name loop consumes plain attribute characters up to the `=` operator
and returns them unchanged. -/
theorem nameLoop_plain : ∀ (arest : List Char) (cpos : Nat) (acc : List Char)
    (tail : List Char),
    (∀ c ∈ arest, c ∉ ([nulChar, replChar, '=', '>', '<', '~', '\\'] : List Char)) →
    nameLoop (arest ++ '=' :: tail) cpos acc =
      .ok (acc ++ arest, ['='], tail, cpos + arest.length + 1) := by
  intro arest
  induction arest with
  | nil =>
    intro cpos acc tail _
    simp only [List.nil_append]
    unfold nameLoop
    rw [if_neg (by decide), if_pos rfl]
    simp
  | cons c cs ih =>
    intro cpos acc tail h
    have hc := h c (by simp)
    simp only [List.mem_cons, List.mem_singleton, not_or] at hc
    obtain ⟨hnul, hrepl, heq, hgt, hlt, htld, hbsl⟩ := hc
    simp only [List.cons_append]
    unfold nameLoop
    rw [if_neg (by tauto), if_neg heq, if_neg (by tauto), if_neg (by tauto)]
    rw [ih (cpos + 1) (acc ++ [c]) tail (fun x hx => h x (by simp [hx]))]
    simp only [List.append_assoc, List.singleton_append, List.length_cons]
    norm_num
    omega

/-- The value loop consumes plain value characters up to the closing
parenthesis (pushed back), flagging whether a literal `*` occurred. -/
theorem valueLoop_plain : ∀ (value : List Char) (cpos : Nat) (acc : List Char)
    (hs : Bool) (tail : List Char),
    (∀ c ∈ value, c ∉ ([nulChar, replChar, ')', '\\'] : List Char)) →
    valueLoop (value ++ ')' :: tail) cpos acc hs =
      .ok (acc ++ value, hs || value.any (· == '*'), ')' :: tail,
        cpos + value.length + 1) := by
  intro value
  induction value with
  | nil =>
    intro cpos acc hs tail _
    simp only [List.nil_append]
    unfold valueLoop
    rw [if_neg (by decide), if_pos rfl]
    simp
  | cons c cs ih =>
    intro cpos acc hs tail h
    have hc := h c (by simp)
    simp only [List.mem_cons, List.mem_singleton, not_or] at hc
    obtain ⟨hnul, hrepl, hpar, hbsl⟩ := hc
    simp only [List.cons_append]
    unfold valueLoop
    rw [if_neg (by tauto), if_neg hpar, if_neg (by tauto)]
    rw [ih (cpos + 1) (acc ++ [c]) (hs || (c == '*')) tail
      (fun x hx => h x (by simp [hx]))]
    simp only [List.append_assoc, List.singleton_append, List.any_cons,
      List.length_cons, Bool.or_assoc]
    norm_num
    omega

/-- C7 amended: for a textual item `(attr=value)` of plain characters whose
value contains `*` but is not exactly `*`, ParseFilter returns a Substrings
filter: initial is the part before the first `*`, final the part after the
last `*`, and `any` is ALL interior parts of the split on `*` — empty
interior parts included. -/
theorem parseFilter_substrings (a0 : Char) (arest value : List Char)
    (ha0 : a0 ∉ ([nulChar, replChar, '&', '|', '!', '=', '>', '<', '~', '\\'] : List Char))
    (harest : ∀ c ∈ arest, c ∉ ([nulChar, replChar, '=', '>', '<', '~', '\\'] : List Char))
    (hvalue : ∀ c ∈ value, c ∉ ([nulChar, replChar, ')', '\\'] : List Char))
    (hstar : '*' ∈ value) (hne : value ≠ ['*']) :
    ParseFilter ('(' :: (a0 :: arest) ++ '=' :: value ++ [')']) =
      .ok (.substrings (a0 :: arest) ((splitStar value).headD [])
        ((splitStar value).getLastD []) (((splitStar value).drop 1).dropLast)) := by
  simp only [List.mem_cons, List.not_mem_nil, not_or, or_false] at ha0
  obtain ⟨hnul, hrepl, hamp, hbar, hbang, heq0, hgt0, hlt0, htld0, hbsl0⟩ := ha0
  have hany : value.any (· == '*') = true :=
    List.any_eq_true.mpr ⟨'*', hstar, by simp⟩
  unfold ParseFilter
  rw [if_neg (by simp)]
  have hshape : ('(' :: (a0 :: arest) ++ '=' :: value ++ [')']) =
      '(' :: a0 :: (arest ++ '=' :: (value ++ [')'])) := by
    simp
  rw [hshape]
  unfold parseFilterF
  simp only [false_and, if_false, reduceCtorEq, ite_false, Bool.false_eq_true]
  rw [if_neg (by simp), if_neg (by simp [hnul, hrepl]), if_neg (by tauto),
    if_neg hbang]
  rw [nameLoop_plain arest (0 + 2) [a0] (value ++ [')'])
    (by simpa using harest)]
  simp only [List.singleton_append]
  rw [valueLoop_plain value (0 + 2 + arest.length + 1) [] false [] hvalue]
  simp only [List.nil_append, Bool.false_or, hany]
  unfold mkItemFilter
  rw [if_neg hne, if_pos rfl, if_neg (by simp)]
  simp [closeParen]

/-- Witness for `parseFilter_substrings` on `(cn=a*b*c)`. -/
theorem parseFilter_substrings_witness :
    ParseFilter ('(' :: ('c' :: ['n']) ++ '=' :: ['a', '*', 'b', '*', 'c'] ++ [')']) =
      .ok (.substrings ('c' :: ['n'])
        ((splitStar ['a', '*', 'b', '*', 'c']).headD [])
        ((splitStar ['a', '*', 'b', '*', 'c']).getLastD [])
        (((splitStar ['a', '*', 'b', '*', 'c']).drop 1).dropLast)) :=
  parseFilter_substrings 'c' ['n'] ['a', '*', 'b', '*', 'c']
    (by decide) (by decide) (by decide) (by decide) (by decide)

/-- C7 counterexample: `(a=x**y)` parses to a Substrings filter whose `any`
list is `[""]` — the empty interior part is kept, while the claim requires
`any` to hold only the non-empty interior parts (here: none). -/
theorem substrings_keeps_empty_any :
    ParseFilter ['(', 'a', '=', 'x', '*', '*', 'y', ')'] =
      .ok (.substrings ['a'] ['x'] ['y'] [[]]) ∧
    ([[]] : List (List Char)) ≠ [] :=
  ⟨rfl, by decide⟩

end GoLdap
